import Mathlib

/-!
Verification development for the IRWA search-engine core
(`myapp/search/algorithms.py` and `myapp/search/search_engine.py`).

The Python pipeline is shallowly embedded: dictionaries become association
lists in insertion order, Python floats become real numbers, nullable fields
become `Option`, and Python's stable `sort`/`sorted` with `reverse=True`
becomes a stable descending insertion sort.
-/

namespace IRWA

/-- The hard-coded fallback stopword set from `algorithms.py` (the NLTK list
branch is an external resource; the source ships this fallback). -/
def STOPWORDS : List String :=
  ["the", "a", "an", "and", "or", "but", "in", "on", "at", "to", "for",
   "of", "with", "by", "from", "is", "are", "was", "were", "be", "been",
   "being", "have", "has", "had", "do", "does", "did", "will", "would",
   "could", "should", "may", "might", "must", "can"]

/-- `re.sub(r'[^a-z0-9\s]', ' ', text)` applied characterwise: any character
that is not a lowercase ASCII letter, digit or whitespace becomes a space. -/
def keepChar (c : Char) : Char :=
  if ('a' ≤ c && c ≤ 'z') || ('0' ≤ c && c ≤ '9') || c.isWhitespace then c else ' '

/-- Python `str.split()` with no argument: split on whitespace runs, dropping
empty pieces.  `acc` holds the characters of the current token, reversed. -/
def splitWsAux : List Char → List Char → List String
  | [], acc => if acc.isEmpty then [] else [String.mk acc.reverse]
  | c :: cs, acc =>
    if c.isWhitespace then
      if acc.isEmpty then splitWsAux cs []
      else String.mk acc.reverse :: splitWsAux cs []
    else splitWsAux cs (c :: acc)

def splitWs (cs : List Char) : List String := splitWsAux cs []

/-- `BM25Index._tokenize`: lowercase, replace every non-`[a-z0-9\s]` character
with a space, split on whitespace, drop empty tokens and stopwords. -/
def tokenize (text : String) : List String :=
  let lowered := text.data.map Char.toLower
  let cleaned := lowered.map keepChar
  (splitWs cleaned).filter (fun t => !t.isEmpty && !STOPWORDS.contains t)

example : tokenize "Red SHOES!" = ["red", "shoes"] := by decide
example : tokenize "the" = [] := by decide
example : tokenize "" = [] := by decide
example : tokenize "the and of" = [] := by decide

/-- Modelled from the spec: the `Document` record of `myapp/search/objects.py`
is not among the provided sources; spec §3 describes it as an immutable record
with a string primary key, nullable text fields, a boolean `outOfStock`,
nullable floating-point commercial fields, a nullable `url` and an image list.
The constructor calls in `algorithms.py`/`search_engine.py` additionally pass
`_id` and (in the engine) `score`, so those fields are included. -/
structure Document where
  _id : String
  pid : String
  title : Option String
  description : Option String
  brand : Option String
  category : Option String
  sub_category : Option String
  product_details : Option String
  seller : Option String
  out_of_stock : Bool
  selling_price : Option ℝ
  discount : Option ℝ
  actual_price : Option ℝ
  average_rating : Option ℝ
  url : Option String
  images : List String
  score : Option ℝ

/-- A corpus: `dict of {doc_id: Document}` in insertion order. -/
abbrev Corpus := List (String × Document)

/-- The text indexed for a document:
`f"{doc.title or ''} {doc.description or ''}"` tokenized
(`BM25Index._build_index`; Python's `or ''` maps `None`/empty to `''`). -/
def docTokens (d : Document) : List String :=
  tokenize ((d.title.getD "") ++ " " ++ (d.description.getD ""))

/-- `self.doc_lengths[doc_id] = len(tokens)`. -/
def docLength (d : Document) : ℕ := (docTokens d).length

/-- `self.doc_term_freqs[doc_id]` as a function: `Counter(tokens)[term]`. -/
def termFreq (d : Document) (term : String) : ℕ := (docTokens d).count term

/-- `total_length`: the sum of all document token counts. -/
def totalLength (corpus : Corpus) : ℕ :=
  (corpus.map (fun p => docLength p.2)).sum

/-- `self.avg_doc_length`: `total_length / len(corpus)` when the corpus is
non-empty, `0` otherwise (`BM25Index._build_index`). -/
noncomputable def avgDocLength (corpus : Corpus) : ℝ :=
  if 0 < corpus.length then (totalLength corpus : ℝ) / (corpus.length : ℝ) else 0

/-- `self.doc_frequencies`: built by iterating the corpus and incrementing the
counter of every distinct term appearing in a document
(`BM25Index._build_index`). -/
def docFrequencies (corpus : Corpus) : String → ℕ :=
  corpus.foldl
    (fun df p => fun t => if t ∈ docTokens p.2 then df t + 1 else df t)
    (fun _ => 0)

/-- BM25 `k1` parameter; `search_in_corpus` constructs the index with `k1=1.5`. -/
noncomputable def k1 : ℝ := 1.5

/-- BM25 `b` parameter; `search_in_corpus` constructs the index with `b=0.75`. -/
noncomputable def bParam : ℝ := 0.75

/-- `BM25Index._calculate_idf`:
`math.log((N - df + 0.5) / (df + 0.5) + 1.0)` with `N = len(corpus)` and
`df = doc_frequencies.get(term, 0)`. -/
noncomputable def calcIdf (corpus : Corpus) (term : String) : ℝ :=
  Real.log (((corpus.length : ℝ) - (docFrequencies corpus term : ℝ) + 0.5)
      / ((docFrequencies corpus term : ℝ) + 0.5) + 1.0)

/-- `BM25Index._calculate_bm25_score`: sum over query tokens; a token with
zero frequency in the document is skipped (`continue`), otherwise it
contributes `idf * tf*(k1+1) / (tf + k1*(1 - b + b*doc_length/avg_doc_length))`. -/
noncomputable def calcBM25Score (corpus : Corpus) (d : Document)
    (queryTokens : List String) : ℝ :=
  queryTokens.foldl
    (fun score term =>
      let tf := termFreq d term
      if tf = 0 then score
      else
        score + calcIdf corpus term * ((tf : ℝ) * (k1 + 1))
          / ((tf : ℝ) + k1 * (1 - bParam + bParam * (docLength d : ℝ) / avgDocLength corpus)))
    0

/-- `BM25Index._apply_metadata_boosts`: `boost = 1.0`, `boost *= 1.2` when
`doc.average_rating` is truthy (non-`None`, non-zero) and `>= 4.0`,
`boost *= 1.1` when `not doc.out_of_stock`; returns `score * boost`. -/
noncomputable def applyMetadataBoosts (score : ℝ) (d : Document) : ℝ :=
  let boost : ℝ := 1.0
  let boost :=
    match d.average_rating with
    | none => boost
    | some r => if r ≠ 0 ∧ 4.0 ≤ r then boost * 1.2 else boost
  let boost := if d.out_of_stock = false then boost * 1.1 else boost
  score * boost

/-- Insert `x` into a (descending) list, placing it before the first element
whose key does not exceed `key x`.  Equal keys keep `x` first, which is what
makes the sort below stable. -/
def insertDesc {α β : Type} [LinearOrder β] (key : α → β) (x : α) :
    List α → List α
  | [] => [x]
  | y :: ys => if key y ≤ key x then x :: y :: ys else y :: insertDesc key x ys

/-- Model of Python's stable `sorted(..., key=..., reverse=True)` /
`list.sort(key=..., reverse=True)`: descending by key, stable (elements with
equal keys keep their input order). -/
def sortDesc {α β : Type} [LinearOrder β] (key : α → β) : List α → List α
  | [] => []
  | x :: xs => insertDesc key x (sortDesc key xs)

/-- The fresh `Document` built for each BM25 result (`BM25Index.search`):
all fields are copied, `_id` is set to `pid`, and no score is passed (so the
constructed document carries the constructor's default, no score). -/
def copyBM25 (d : Document) : Document :=
  { d with _id := d.pid, score := none }

/-- `BM25Index.search`: tokenize the query (empty tokens give `[]`), score and
boost every corpus document in corpus order, sort by score descending
(stable), take the top `top_k`, and emit copied documents paired with their
scores. -/
noncomputable def bm25Search (corpus : Corpus) (queryText : String)
    (topK : ℕ) : List (Document × ℝ) :=
  let queryTokens := tokenize queryText
  if queryTokens.isEmpty then []
  else
    let scores : List ((String × Document) × ℝ) :=
      corpus.map (fun p =>
        (p, applyMetadataBoosts (calcBM25Score corpus p.2 queryTokens) p.2))
    let ranked := sortDesc (fun x => x.2) scores
    (ranked.take topK).map (fun x => (copyBM25 x.1.2, x.2))

/-- `search_in_corpus`: builds the index with `k1=1.5`, `b=0.75` (the values
baked into `k1`/`bParam` above) and returns `index.search(query, top_k)`. -/
noncomputable def searchInCorpus (queryText : String) (corpus : Corpus)
    (topK : ℕ) : List (Document × ℝ) :=
  bm25Search corpus queryText topK

/-- The synthesized detail link
`f"/doc_details?pid={doc.pid}&search_id={search_id}"`. -/
def synthUrl (pid searchId : String) : String :=
  "/doc_details?pid=" ++ pid ++ "&search_id=" ++ searchId

/-- `link_url = original_url if original_url else f"/doc_details?..."`:
Python truthiness makes both `None` and the empty string fall back. -/
def resolveUrl (searchId : String) (d : Document) : String :=
  match d.url with
  | none => synthUrl d.pid searchId
  | some u => if u.isEmpty then synthUrl d.pid searchId else u

/-- The result `Document` built by `SearchEngine.search`: fields copied,
`_id := pid`, resolved url, and the hybrid score attached. -/
noncomputable def finalizeDoc (searchId : String) (d : Document) (s : ℝ) :
    Document :=
  { d with _id := d.pid, url := some (resolveUrl searchId d), score := some s }

/-- The `min_price` accumulation loop of `SearchEngine.search`: starts at
`None`, updates when a price is present and smaller. -/
noncomputable def minPriceFold (l : List (Document × ℝ)) : Option ℝ :=
  l.foldl
    (fun acc p =>
      match p.1.selling_price with
      | none => acc
      | some pr =>
        match acc with
        | none => some pr
        | some m => if pr < m then some pr else some m)
    none

/-- The `max_price` accumulation loop of `SearchEngine.search`. -/
noncomputable def maxPriceFold (l : List (Document × ℝ)) : Option ℝ :=
  l.foldl
    (fun acc p =>
      match p.1.selling_price with
      | none => acc
      | some pr =>
        match acc with
        | none => some pr
        | some m => if m < pr then some pr else some m)
    none

/-- Python `max` over a non-empty list of floats (folds `max` from the head). -/
noncomputable def pyMax : List ℝ → ℝ
  | [] => 0
  | x :: xs => xs.foldl max x

/-- Python `max` over a non-empty list of click counts. -/
def pyMaxNat : List ℕ → ℕ
  | [] => 0
  | x :: xs => xs.foldl max x

/-- Per-document click count: `analytics_data.fact_clicks.get(doc.pid, 0)`
when a snapshot is supplied, `0` otherwise. -/
def clicksOf (cc : Option (String → ℕ)) (d : Document) : ℕ :=
  match cc with
  | some f => f d.pid
  | none => 0

/-- `sim_norm = (s / max_bm25) if max_bm25 else 0.0`. -/
noncomputable def simNorm (maxBM25 s : ℝ) : ℝ :=
  if maxBM25 ≠ 0 then s / maxBM25 else 0

/-- `rating_norm = min(max(rating / 5.0, 0.0), 1.0)` with
`rating = doc.average_rating or 0.0`. -/
noncomputable def ratingNorm (d : Document) : ℝ :=
  min (max ((d.average_rating.getD 0) / 5.0) 0.0) 1.0

/-- `discount_norm = min(max(discount_val / 100.0, 0.0), 1.0)` with a missing
(or non-numeric) discount defaulted to `0.0`. -/
noncomputable def discountNorm (d : Document) : ℝ :=
  min (max ((d.discount.getD 0) / 100.0) 0.0) 1.0

/-- `price_score`: neutral `0.5` when the candidate has no price, the set has
no min/max price, or they coincide; otherwise
`1.0 - (price - min_price) / (max_price - min_price)`. -/
noncomputable def priceScore (minP maxP price : Option ℝ) : ℝ :=
  match price, minP, maxP with
  | some p, some mn, some mx =>
    if mx = mn then 0.5 else 1.0 - (p - mn) / (mx - mn)
  | _, _, _ => 0.5

/-- `popularity_norm = (clicks / max_clicks) if max_clicks else 0.0`. -/
noncomputable def popularityNorm (maxClicks clicks : ℕ) : ℝ :=
  if maxClicks ≠ 0 then (clicks : ℝ) / (maxClicks : ℝ) else 0

/-- The weighted fusion of `SearchEngine.search`, then the `1.05` in-stock
multiplier. -/
noncomputable def hybridFinal (sn rn dn ps pn : ℝ) (outOfStock : Bool) : ℝ :=
  let f := 0.6 * sn + 0.15 * rn + 0.1 * dn + 0.05 * ps + 0.05 * pn
  if outOfStock = false then f * 1.05 else f

/-- `max_bm25 = max(bm25_scores) if bm25_scores else 1.0`. -/
noncomputable def maxBM25Of (l : List (Document × ℝ)) : ℝ :=
  if (l.map (fun p => p.2)).isEmpty then 1.0 else pyMax (l.map (fun p => p.2))

/-- `max_clicks = max(click_counts.values()) if click_counts else 1`
(the dict is keyed by pid; equal pids carry equal click values, so the
maximum over the candidate list equals the maximum over the dict values). -/
def maxClicksOf (cc : Option (String → ℕ)) (l : List (Document × ℝ)) : ℕ :=
  if (l.map (fun p => clicksOf cc p.1)).isEmpty then 1
  else pyMaxNat (l.map (fun p => clicksOf cc p.1))

/-- The hybrid `final_score` of one candidate `p` of the candidate list `l`. -/
noncomputable def hybridScoreOf (cc : Option (String → ℕ))
    (l : List (Document × ℝ)) (p : Document × ℝ) : ℝ :=
  hybridFinal (simNorm (maxBM25Of l) p.2) (ratingNorm p.1) (discountNorm p.1)
    (priceScore (minPriceFold l) (maxPriceFold l) p.1.selling_price)
    (popularityNorm (maxClicksOf cc l) (clicksOf cc p.1)) p.1.out_of_stock

/-- The scored candidate list of `SearchEngine.search`, in the BM25-ranked
input order: each BM25 candidate paired with its hybrid `final_score`. -/
noncomputable def hybridScoredList (corpus : Corpus) (queryText : String)
    (cc : Option (String → ℕ)) : List (Document × ℝ) :=
  let bm25_results := bm25Search corpus queryText 20
  bm25_results.map (fun p => (p.1, hybridScoreOf cc bm25_results p))

/-- `SearchEngine.search`: BM25 retrieval (top 20), empty-guard, hybrid
scoring, stable sort by `final_score` descending, and construction of the
final documents with resolved urls and attached scores. -/
noncomputable def searchEngineSearch (queryText searchId : String)
    (corpus : Corpus) (cc : Option (String → ℕ)) : List Document :=
  let bm25_results := bm25Search corpus queryText 20
  if bm25_results.isEmpty then []
  else
    (sortDesc (fun p => p.2) (hybridScoredList corpus queryText cc)).map
      (fun p => finalizeDoc searchId p.1 p.2)

section SortLemmas

variable {α β : Type} [LinearOrder β] (key : α → β)

theorem insertDesc_perm (x : α) (l : List α) :
    List.Perm (insertDesc key x l) (x :: l) := by
  induction l with
  | nil => simp [insertDesc]
  | cons y ys ih =>
    simp only [insertDesc]
    by_cases h : key y ≤ key x
    · simp [h]
    · simp only [if_neg h]
      exact (ih.cons y).trans (List.Perm.swap x y ys)

theorem sortDesc_perm (l : List α) : List.Perm (sortDesc key l) l := by
  induction l with
  | nil => simp [sortDesc]
  | cons x xs ih =>
    exact (insertDesc_perm key x (sortDesc key xs)).trans (ih.cons x)

theorem sortDesc_length (l : List α) : (sortDesc key l).length = l.length :=
  (sortDesc_perm key l).length_eq

theorem sortDesc_mem (l : List α) (a : α) :
    a ∈ sortDesc key l ↔ a ∈ l :=
  (sortDesc_perm key l).mem_iff

theorem insertDesc_filter (x : α) (l : List α) (k : β) :
    (insertDesc key x l).filter (fun a => decide (key a = k)) =
      if key x = k then x :: l.filter (fun a => decide (key a = k))
      else l.filter (fun a => decide (key a = k)) := by
  induction l with
  | nil =>
    by_cases h : key x = k <;> simp [insertDesc, List.filter, h]
  | cons y ys ih =>
    simp only [insertDesc]
    by_cases h : key y ≤ key x
    · rw [if_pos h]
      by_cases hx : key x = k <;> simp [List.filter_cons, hx]
    · have hlt : key x < key y := lt_of_not_le h
      simp only [if_neg h, List.filter_cons]
      by_cases hy : key y = k
      · have hx : ¬ key x = k := fun hx => absurd (hx.trans hy.symm) (ne_of_lt hlt)
        simp [hx, hy, ih]
      · by_cases hx : key x = k <;> simp [hx, hy, ih]

/-- Stability of the descending sort: for every key value `k`, the elements
with key `k` appear in the output in exactly their input order. -/
theorem sortDesc_stable (l : List α) (k : β) :
    (sortDesc key l).filter (fun a => decide (key a = k)) =
      l.filter (fun a => decide (key a = k)) := by
  induction l with
  | nil => simp [sortDesc]
  | cons x xs ih =>
    simp only [sortDesc, insertDesc_filter, List.filter_cons]
    by_cases hx : key x = k <;> simp [hx, ih]

theorem insertDesc_pairwise (x : α) (l : List α)
    (h : l.Pairwise (fun a b => key b ≤ key a)) :
    (insertDesc key x l).Pairwise (fun a b => key b ≤ key a) := by
  induction l with
  | nil => simp [insertDesc]
  | cons y ys ih =>
    simp only [insertDesc]
    rcases List.pairwise_cons.mp h with ⟨hy, hys⟩
    by_cases hle : key y ≤ key x
    · rw [if_pos hle]
      refine List.pairwise_cons.mpr ⟨?_, h⟩
      intro z hz
      rcases List.mem_cons.mp hz with rfl | hz
      · exact hle
      · exact (hy z hz).trans hle
    · have hlt : key x < key y := lt_of_not_le hle
      rw [if_neg hle]
      refine List.pairwise_cons.mpr ⟨?_, ih hys⟩
      intro z hz
      rcases List.mem_cons.mp ((insertDesc_perm key x ys).mem_iff.mp hz) with rfl | hz
      · exact le_of_lt hlt
      · exact hy z hz

/-- The descending sort really sorts: adjacent keys are non-increasing. -/
theorem sortDesc_sorted (l : List α) :
    (sortDesc key l).Pairwise (fun a b => key b ≤ key a) := by
  induction l with
  | nil => simp [sortDesc]
  | cons x xs ih => exact insertDesc_pairwise key x _ ih

end SortLemmas

section PipelineLemmas

theorem bm25Search_empty_query {q : String} (hq : tokenize q = [])
    (corpus : Corpus) (topK : ℕ) : bm25Search corpus q topK = [] := by
  simp [bm25Search, hq]

theorem bm25Search_empty_corpus (q : String) (topK : ℕ) :
    bm25Search [] q topK = [] := by
  by_cases hq : (tokenize q).isEmpty <;> simp [bm25Search, hq, sortDesc]

theorem bm25Search_length {q : String} (hq : tokenize q ≠ [])
    (corpus : Corpus) (topK : ℕ) :
    (bm25Search corpus q topK).length = min topK corpus.length := by
  have hq' : (tokenize q).isEmpty = false := by
    simpa [List.isEmpty_iff] using hq
  simp [bm25Search, hq', List.length_take, sortDesc_length]

theorem bm25Search_length_le (q : String) (corpus : Corpus) (topK : ℕ) :
    (bm25Search corpus q topK).length ≤ min topK corpus.length := by
  by_cases hq : tokenize q = []
  · simp [bm25Search_empty_query hq]
  · exact le_of_eq (bm25Search_length hq corpus topK)

theorem hybridScoredList_length (corpus : Corpus) (q : String)
    (cc : Option (String → ℕ)) :
    (hybridScoredList corpus q cc).length = (bm25Search corpus q 20).length := by
  simp [hybridScoredList]

end PipelineLemmas

/-- A document with every optional field absent and `out_of_stock = true`. -/
def baseDoc : Document :=
  { _id := "", pid := "", title := none, description := none, brand := none,
    category := none, sub_category := none, product_details := none,
    seller := none, out_of_stock := true, selling_price := none,
    discount := none, actual_price := none, average_rating := none,
    url := none, images := [], score := none }

/-- A document whose indexed text is a single stopword, so it tokenizes to
zero tokens. -/
def docStop : Document := { baseDoc with _id := "Z1", pid := "Z1", title := some "the" }

/-- A one-document corpus whose only document has zero tokens. -/
def corpusZ : Corpus := [("Z1", docStop)]

def docRed : Document := { baseDoc with _id := "A", pid := "A", title := some "red shoes" }

def docBlue : Document := { baseDoc with _id := "B", pid := "B", title := some "blue shoes" }

/-- A two-document corpus where "shoes" occurs in both documents and "red" in
only one. -/
def corpusRB : Corpus := [("A", docRed), ("B", docBlue)]

/-- A well-rated in-stock document, for exercising the metadata boosts. -/
noncomputable def docRated : Document :=
  { baseDoc with
    _id := "R"
    pid := "R"
    average_rating := some 4.5
    out_of_stock := false }

/-- C7: for every query an empty corpus yields the empty result sequence, and
for every corpus a query tokenizing to the empty token sequence (empty string
or stopwords only) yields the empty result sequence; the pipeline is total, so
no error is raised in either case. -/
theorem empty_inputs_give_empty_results (q sid : String) (corpus : Corpus)
    (cc : Option (String → ℕ)) :
    (corpus = [] → searchEngineSearch q sid corpus cc = []) ∧
    (tokenize q = [] → searchEngineSearch q sid corpus cc = []) := by
  constructor
  · rintro rfl
    simp [searchEngineSearch, bm25Search_empty_corpus]
  · intro hq
    simp [searchEngineSearch, bm25Search_empty_query hq]

theorem empty_inputs_give_empty_results_witness :
    tokenize "the and of" = [] ∧
      searchEngineSearch "the and of" "s1" corpusZ none = [] :=
  ⟨by decide,
    (empty_inputs_give_empty_results "the and of" "s1" corpusZ none).2 (by decide)⟩

/-- C8: the pipeline is deterministic — two calls of the search with identical
query, search id, corpus and click-count snapshot produce identical ordered
results with identical scores (the embedding of the pipeline is a pure
function of exactly these four inputs, so the two calls are the same value). -/
theorem pipeline_deterministic (q sid : String) (corpus : Corpus)
    (cc : Option (String → ℕ)) :
    searchEngineSearch q sid corpus cc = searchEngineSearch q sid corpus cc ∧
    searchInCorpus q corpus 20 = searchInCorpus q corpus 20 :=
  ⟨rfl, rfl⟩

/-- C6: for every corpus and query, the ranked result sequence of the search
engine has length at most `min 20 |corpus|` (20 is the default `top_k`). -/
theorem result_length_le_min (q sid : String) (corpus : Corpus)
    (cc : Option (String → ℕ)) :
    (searchEngineSearch q sid corpus cc).length ≤ min 20 corpus.length := by
  by_cases hb : (bm25Search corpus q 20).isEmpty
  · simp [searchEngineSearch, hb]
  · have heq : searchEngineSearch q sid corpus cc =
        (sortDesc (fun p => p.2) (hybridScoredList corpus q cc)).map
          (fun p => finalizeDoc sid p.1 p.2) := by
      simp [searchEngineSearch, hb]
    rw [heq]
    rw [List.length_map, sortDesc_length, hybridScoredList_length]
    exact bm25Search_length_le q corpus 20

/-- C2: the final sort of the hybrid reranker is a stable descending sort on
`final_score` over the BM25-ranked candidate list: for every score value,
candidates carrying that score appear in the output in exactly their
BM25-stage order, and adjacent output scores are non-increasing. -/
theorem hybrid_sort_stable (q : String) (corpus : Corpus)
    (cc : Option (String → ℕ)) (k : ℝ) :
    (sortDesc (fun p => p.2) (hybridScoredList corpus q cc)).filter
        (fun p => decide (p.2 = k)) =
      (hybridScoredList corpus q cc).filter (fun p => decide (p.2 = k)) ∧
    (sortDesc (fun p => p.2) (hybridScoredList corpus q cc)).Pairwise
      (fun a b => b.2 ≤ a.2) :=
  ⟨sortDesc_stable _ _ k, sortDesc_sorted _ _⟩

/-- C3: the metadata boost is exactly multiplicative: ×1.2 with a present
rating ≥ 4, ×1.1 when in stock, ×1.32 with both, the identity with neither;
it maps score 0 to 0 for every document; and no field other than
`average_rating` and `out_of_stock` affects it. -/
theorem metadata_boost_multiplicative (s : ℝ) (d : Document) :
    ((∃ r, d.average_rating = some r ∧ 4 ≤ r) → d.out_of_stock = false →
        applyMetadataBoosts s d = s * 1.32) ∧
    ((∃ r, d.average_rating = some r ∧ 4 ≤ r) → d.out_of_stock = true →
        applyMetadataBoosts s d = s * 1.2) ∧
    ((∀ r, d.average_rating = some r → r < 4) → d.out_of_stock = false →
        applyMetadataBoosts s d = s * 1.1) ∧
    ((∀ r, d.average_rating = some r → r < 4) → d.out_of_stock = true →
        applyMetadataBoosts s d = s) ∧
    applyMetadataBoosts 0 d = 0 ∧
    (∀ d' : Document, d.average_rating = d'.average_rating →
        d.out_of_stock = d'.out_of_stock →
        applyMetadataBoosts s d = applyMetadataBoosts s d') := by
  have hcond : ∀ r : ℝ, 4 ≤ r → (r ≠ 0 ∧ (4.0 : ℝ) ≤ r) := by
    intro r h4
    constructor
    · intro h0
      rw [h0] at h4
      norm_num at h4
    · norm_num
      exact h4
  refine ⟨?_, ?_, ?_, ?_, ?_, ?_⟩
  · rintro ⟨r, hr, h4⟩ hoos
    simp only [applyMetadataBoosts, hr, hoos, if_pos (hcond r h4)]
    norm_num
  · rintro ⟨r, hr, h4⟩ hoos
    simp only [applyMetadataBoosts, hr, hoos, if_pos (hcond r h4)]
    norm_num
  · intro hlt hoos
    cases h : d.average_rating with
    | none => simp only [applyMetadataBoosts, h, hoos]; norm_num
    | some r =>
      have hneg : ¬ (r ≠ 0 ∧ (4.0 : ℝ) ≤ r) := by
        rintro ⟨-, h4⟩
        have := hlt r h
        norm_num at h4
        linarith
      simp only [applyMetadataBoosts, h, hoos, if_neg hneg]
      norm_num
  · intro hlt hoos
    cases h : d.average_rating with
    | none => simp only [applyMetadataBoosts, h, hoos]; norm_num
    | some r =>
      have hneg : ¬ (r ≠ 0 ∧ (4.0 : ℝ) ≤ r) := by
        rintro ⟨-, h4⟩
        have := hlt r h
        norm_num at h4
        linarith
      simp only [applyMetadataBoosts, h, hoos, if_neg hneg]
      norm_num
  · exact zero_mul _
  · intro d' h1 h2
    simp only [applyMetadataBoosts, h1, h2]

theorem metadata_boost_multiplicative_witness :
    applyMetadataBoosts 2 docRated = 2 * 1.32 :=
  (metadata_boost_multiplicative 2 docRated).1 ⟨4.5, rfl, by norm_num⟩ rfl

theorem docFrequencies_foldl_le (l : Corpus) (df0 : String → ℕ) (t : String) :
    l.foldl (fun df p => fun u => if u ∈ docTokens p.2 then df u + 1 else df u)
        df0 t ≤ df0 t + l.length := by
  induction l generalizing df0 with
  | nil => simp
  | cons p ps ih =>
    simp only [List.foldl_cons, List.length_cons]
    refine le_trans (ih _) ?_
    by_cases h : t ∈ docTokens p.2
    · rw [if_pos h]
      omega
    · rw [if_neg h]
      omega

/-- `doc_frequencies[t]` counts at most one hit per corpus document. -/
theorem docFrequencies_le_length (corpus : Corpus) (t : String) :
    docFrequencies corpus t ≤ corpus.length := by
  have h := docFrequencies_foldl_le corpus (fun _ => 0) t
  simpa [docFrequencies] using h

/-- Algebraic simplification of the BM25 IDF argument:
`(N - df + 0.5)/(df + 0.5) + 1 = (N + 1)/(df + 0.5)`. -/
theorem calcIdf_eq (corpus : Corpus) (t : String) :
    calcIdf corpus t =
      Real.log (((corpus.length : ℝ) + 1) /
        ((docFrequencies corpus t : ℝ) + 0.5)) := by
  unfold calcIdf
  congr 1
  have h : ((docFrequencies corpus t : ℝ) + 0.5) ≠ 0 := by positivity
  field_simp
  ring

theorem calcIdf_pos (corpus : Corpus) (t : String) : 0 < calcIdf corpus t := by
  rw [calcIdf_eq]
  apply Real.log_pos
  rw [lt_div_iff₀ (by positivity)]
  have h : (docFrequencies corpus t : ℝ) ≤ (corpus.length : ℝ) :=
    Nat.cast_le.mpr (docFrequencies_le_length corpus t)
  norm_num
  linarith

/-- C4: IDF is strictly decreasing in document frequency, and strictly
positive for every term (document frequencies never exceed the corpus size,
and unseen terms get `df = 0`). -/
theorem idf_monotone_positive (corpus : Corpus) (t1 t2 : String)
    (h : docFrequencies corpus t1 < docFrequencies corpus t2) :
    calcIdf corpus t2 < calcIdf corpus t1 ∧ (∀ t, 0 < calcIdf corpus t) := by
  refine ⟨?_, fun t => calcIdf_pos corpus t⟩
  rw [calcIdf_eq, calcIdf_eq]
  apply Real.log_lt_log
  · positivity
  · apply div_lt_div_of_pos_left
    · positivity
    · positivity
    · have hc : (docFrequencies corpus t1 : ℝ) < (docFrequencies corpus t2 : ℝ) :=
        Nat.cast_lt.mpr h
      linarith

theorem idf_monotone_positive_witness :
    docFrequencies corpusRB "red" < docFrequencies corpusRB "shoes" ∧
    calcIdf corpusRB "shoes" < calcIdf corpusRB "red" :=
  ⟨by decide, (idf_monotone_positive corpusRB "red" "shoes" (by decide)).1⟩

/-- C9: the division by `avg_doc_length` in the BM25 term loop is guarded by
`tf ≠ 0`: a strictly positive term frequency for a corpus document forces a
strictly positive average document length, so the division never divides by
zero. -/
theorem bm25_division_guard (corpus : Corpus) (p : String × Document)
    (hp : p ∈ corpus) (t : String) (ht : 0 < termFreq p.2 t) :
    0 < avgDocLength corpus := by
  have hmem : t ∈ docTokens p.2 := by
    have h := ht
    unfold termFreq at h
    exact List.count_pos_iff.mp h
  have hdl : 0 < docLength p.2 :=
    List.length_pos.mpr (List.ne_nil_of_mem hmem)
  have hsum : docLength p.2 ≤ totalLength corpus := by
    have hm : docLength p.2 ∈ corpus.map (fun q => docLength q.2) :=
      List.mem_map.mpr ⟨p, hp, rfl⟩
    exact List.le_sum_of_mem hm
  have hlen : 0 < corpus.length :=
    List.length_pos.mpr (List.ne_nil_of_mem hp)
  unfold avgDocLength
  rw [if_pos hlen]
  apply div_pos
  · exact_mod_cast lt_of_lt_of_le hdl hsum
  · exact_mod_cast hlen

theorem bm25_division_guard_witness :
    ("A", docRed) ∈ corpusRB ∧ 0 < termFreq docRed "shoes" ∧
    0 < avgDocLength corpusRB :=
  ⟨List.mem_cons_self _ _, by decide,
    bm25_division_guard corpusRB ("A", docRed) (List.mem_cons_self _ _)
      "shoes" (by decide)⟩

/-- A document with no tokens has BM25 score 0 for every query: each term hits
the `tf == 0` `continue` branch. -/
theorem calcBM25Score_zero (corpus : Corpus) (d : Document)
    (hd : docTokens d = []) (qt : List String) :
    calcBM25Score corpus d qt = 0 := by
  have hz : ∀ t, termFreq d t = 0 := fun t => by simp [termFreq, hd]
  unfold calcBM25Score
  induction qt with
  | nil => rfl
  | cons t ts ih =>
    rw [List.foldl_cons]
    simpa [hz t] using ih

theorem applyMetadataBoosts_zero (d : Document) :
    applyMetadataBoosts 0 d = 0 := zero_mul _

/-- Every score emitted by `BM25Index.search` is the boosted BM25 score of a
corpus document. -/
theorem bm25Search_score_shape {corpus : Corpus} {q : String} {topK : ℕ}
    {r : Document × ℝ} (hr : r ∈ bm25Search corpus q topK) :
    ∃ p ∈ corpus,
      r = (copyBM25 p.2,
        applyMetadataBoosts (calcBM25Score corpus p.2 (tokenize q)) p.2) := by
  unfold bm25Search at hr
  by_cases hq : (tokenize q).isEmpty
  · rw [if_pos hq] at hr
    exact absurd hr (List.not_mem_nil r)
  · rw [if_neg hq] at hr
    rcases List.mem_map.mp hr with ⟨x, hx, rfl⟩
    have hx' := List.mem_of_mem_take hx
    have hx'' :=
      (sortDesc_perm (fun y : (String × Document) × ℝ => y.2) _).mem_iff.mp hx'
    rcases List.mem_map.mp hx'' with ⟨p, hp, rfl⟩
    exact ⟨p, hp, rfl⟩

/-- C1 counterexample: a non-empty corpus in which every document tokenizes to
zero tokens (so `avg_doc_length = 0`) together with a query that tokenizes to
a non-empty sequence, on which the search does NOT return the empty result
sequence claimed by the spec. -/
theorem no_avg_guard_counterexample :
    corpusZ ≠ [] ∧ (∀ p ∈ corpusZ, docTokens p.2 = []) ∧
    tokenize "shoes" ≠ [] ∧ bm25Search corpusZ "shoes" 20 ≠ [] := by
  refine ⟨by simp [corpusZ], by decide, by decide, ?_⟩
  intro hnil
  have h : (bm25Search corpusZ "shoes" 20).length = min 20 corpusZ.length :=
    bm25Search_length (by decide) corpusZ 20
  rw [hnil] at h
  simp [corpusZ] at h

/-- C1 (amended): on a non-empty corpus whose documents all tokenize to zero
tokens, with a query tokenizing to a non-empty sequence, the search does not
skip scoring: it scores every document (each raw and boosted score is 0, the
division being unreachable) and returns `min top_k |corpus|` results, each
carrying score 0. -/
theorem zero_token_corpus_scores_all (corpus : Corpus) (q : String) (topK : ℕ)
    (_hc : corpus ≠ []) (hz : ∀ p ∈ corpus, docTokens p.2 = [])
    (hq : tokenize q ≠ []) :
    (bm25Search corpus q topK).length = min topK corpus.length ∧
    ∀ r ∈ bm25Search corpus q topK, r.2 = 0 := by
  refine ⟨bm25Search_length hq corpus topK, ?_⟩
  intro r hr
  rcases bm25Search_score_shape hr with ⟨p, hp, rfl⟩
  simp only []
  rw [calcBM25Score_zero corpus p.2 (hz p hp) (tokenize q),
    applyMetadataBoosts_zero]

theorem zero_token_corpus_scores_all_witness :
    corpusZ ≠ [] ∧ (∀ p ∈ corpusZ, docTokens p.2 = []) ∧
    tokenize "shoes" ≠ [] ∧
    ((bm25Search corpusZ "shoes" 20).length = min 20 corpusZ.length ∧
      ∀ r ∈ bm25Search corpusZ "shoes" 20, r.2 = 0) :=
  ⟨by simp [corpusZ], by decide, by decide,
    zero_token_corpus_scores_all corpusZ "shoes" 20 (by simp [corpusZ])
      (by decide) (by decide)⟩

/-- C10: on a non-empty corpus and a query with at least one token, the
result has length exactly `min 20 |corpus|`; moreover when the whole corpus
fits in the top 20 the returned pids are a permutation of the corpus pids —
documents sharing no query token are scored 0 but never filtered out. -/
theorem full_scoring_keeps_all_documents (q sid : String) (corpus : Corpus)
    (cc : Option (String → ℕ)) (hc : corpus ≠ []) (hq : tokenize q ≠ []) :
    (searchEngineSearch q sid corpus cc).length = min 20 corpus.length ∧
    (corpus.length ≤ 20 →
      List.Perm ((searchEngineSearch q sid corpus cc).map (fun d => d.pid))
        (corpus.map (fun p => p.2.pid))) := by
  have hlen : (bm25Search corpus q 20).length = min 20 corpus.length :=
    bm25Search_length hq corpus 20
  have hpos : 0 < (bm25Search corpus q 20).length := by
    rw [hlen]
    exact lt_min (by norm_num) (List.length_pos.mpr hc)
  have hne : (bm25Search corpus q 20).isEmpty = false := by
    rcases h : bm25Search corpus q 20 with _ | ⟨a, l⟩
    · rw [h] at hpos
      simp at hpos
    · rfl
  have heq : searchEngineSearch q sid corpus cc =
      (sortDesc (fun p : Document × ℝ => p.2) (hybridScoredList corpus q cc)).map
        (fun p => finalizeDoc sid p.1 p.2) := by
    simp only [searchEngineSearch, hne, Bool.false_eq_true, if_false]
  constructor
  · rw [heq, List.length_map, sortDesc_length, hybridScoredList_length, hlen]
  · intro h20
    rw [heq, List.map_map]
    have e1 : ((fun d : Document => d.pid) ∘
        fun p : Document × ℝ => finalizeDoc sid p.1 p.2) =
        (fun p : Document × ℝ => p.1.pid) := rfl
    rw [e1]
    refine ((sortDesc_perm (fun p : Document × ℝ => p.2) _).map _).trans ?_
    have e2 : (hybridScoredList corpus q cc).map
          (fun p : Document × ℝ => p.1.pid) =
        (bm25Search corpus q 20).map (fun p : Document × ℝ => p.1.pid) := by
      simp only [hybridScoredList, List.map_map]
      rfl
    rw [e2]
    have hq' : (tokenize q).isEmpty = false := by
      simpa [List.isEmpty_iff] using hq
    have e3 : (bm25Search corpus q 20).map (fun p : Document × ℝ => p.1.pid) =
        (sortDesc (fun x : (String × Document) × ℝ => x.2)
            (corpus.map (fun p =>
              (p, applyMetadataBoosts (calcBM25Score corpus p.2 (tokenize q)) p.2)))).map
          (fun x : (String × Document) × ℝ => x.1.2.pid) := by
      simp only [bm25Search, hq', Bool.false_eq_true, if_false]
      rw [List.take_of_length_le
          (by rw [sortDesc_length, List.length_map]; exact h20), List.map_map]
      rfl
    rw [e3]
    refine ((sortDesc_perm _ _).map _).trans ?_
    rw [List.map_map]
    exact List.Perm.refl _

theorem full_scoring_keeps_all_documents_witness :
    corpusZ ≠ [] ∧ tokenize "shoes" ≠ [] ∧
    ((searchEngineSearch "shoes" "s1" corpusZ none).length = min 20 corpusZ.length ∧
      (corpusZ.length ≤ 20 →
        List.Perm
          ((searchEngineSearch "shoes" "s1" corpusZ none).map (fun d => d.pid))
          (corpusZ.map (fun p => p.2.pid)))) :=
  ⟨by simp [corpusZ], by decide,
    full_scoring_keeps_all_documents "shoes" "s1" corpusZ none
      (by simp [corpusZ]) (by decide)⟩

section Nonneg

theorem avgDocLength_nonneg (corpus : Corpus) : 0 ≤ avgDocLength corpus := by
  unfold avgDocLength
  split
  · positivity
  · exact le_refl 0

theorem calcBM25Score_nonneg (corpus : Corpus) (d : Document)
    (qt : List String) : 0 ≤ calcBM25Score corpus d qt := by
  unfold calcBM25Score
  suffices h : ∀ (l : List String) (s : ℝ), 0 ≤ s →
      0 ≤ l.foldl (fun score term =>
        let tf := termFreq d term
        if tf = 0 then score
        else
          score + calcIdf corpus term * ((tf : ℝ) * (k1 + 1))
            / ((tf : ℝ) + k1 * (1 - bParam + bParam * (docLength d : ℝ) / avgDocLength corpus))) s by
    exact h qt 0 (le_refl 0)
  intro l
  induction l with
  | nil => intro s hs; exact hs
  | cons t ts ih =>
    intro s hs
    rw [List.foldl_cons]
    apply ih
    by_cases htf : termFreq d t = 0
    · simpa [htf] using hs
    · simp only [htf, if_false]
      have hidf : 0 ≤ calcIdf corpus t := le_of_lt (calcIdf_pos corpus t)
      have hnum : 0 ≤ (termFreq d t : ℝ) * (k1 + 1) := by
        have : (0 : ℝ) ≤ k1 + 1 := by unfold k1; norm_num
        positivity
      have hden : 0 ≤ (termFreq d t : ℝ) +
          k1 * (1 - bParam + bParam * (docLength d : ℝ) / avgDocLength corpus) := by
        have h1 : (0 : ℝ) ≤ bParam * (docLength d : ℝ) / avgDocLength corpus := by
          apply div_nonneg _ (avgDocLength_nonneg corpus)
          have hb : (0 : ℝ) ≤ bParam := by unfold bParam; norm_num
          positivity
        have h2 : (0 : ℝ) ≤ 1 - bParam + bParam * (docLength d : ℝ) / avgDocLength corpus := by
          have hb : bParam = 0.75 := rfl
          rw [hb] at h1 ⊢
          norm_num
          linarith
        have h3 : (0 : ℝ) ≤ k1 := by unfold k1; norm_num
        positivity
      have : 0 ≤ calcIdf corpus t * ((termFreq d t : ℝ) * (k1 + 1))
          / ((termFreq d t : ℝ) + k1 * (1 - bParam + bParam * (docLength d : ℝ) / avgDocLength corpus)) :=
        div_nonneg (mul_nonneg hidf hnum) hden
      linarith

theorem applyMetadataBoosts_nonneg {s : ℝ} (hs : 0 ≤ s) (d : Document) :
    0 ≤ applyMetadataBoosts s d := by
  cases h : d.average_rating with
  | none =>
    simp only [applyMetadataBoosts, h]
    split <;> positivity
  | some r =>
    simp only [applyMetadataBoosts, h]
    split <;> split <;> positivity

theorem bm25Search_snd_nonneg {corpus : Corpus} {q : String} {topK : ℕ}
    {r : Document × ℝ} (hr : r ∈ bm25Search corpus q topK) : 0 ≤ r.2 := by
  rcases bm25Search_score_shape hr with ⟨p, hp, rfl⟩
  exact applyMetadataBoosts_nonneg (calcBM25Score_nonneg corpus p.2 (tokenize q)) p.2

theorem foldl_max_init_le (l : List ℝ) (a : ℝ) : a ≤ l.foldl max a := by
  induction l generalizing a with
  | nil => exact le_refl a
  | cons b bs ih => exact le_trans (le_max_left a b) (ih (max a b))

theorem maxBM25Of_nonneg {corpus : Corpus} {q : String} {topK : ℕ} :
    0 ≤ maxBM25Of (bm25Search corpus q topK) := by
  unfold maxBM25Of
  split
  · norm_num
  · rename_i h
    rcases hl : (bm25Search corpus q topK).map (fun p => p.2) with _ | ⟨x, xs⟩
    · rw [hl] at h
      simp at h
    · rw [hl]
      unfold pyMax
      have hx : x ∈ (bm25Search corpus q topK).map (fun p => p.2) := by
        rw [hl]; exact List.mem_cons_self x xs
      rcases List.mem_map.mp hx with ⟨r, hr, hrx⟩
      have : 0 ≤ x := hrx ▸ bm25Search_snd_nonneg hr
      exact le_trans this (foldl_max_init_le xs x)

theorem simNorm_nonneg {m s : ℝ} (hm : 0 ≤ m) (hs : 0 ≤ s) :
    0 ≤ simNorm m s := by
  unfold simNorm
  split
  · exact div_nonneg hs hm
  · exact le_refl 0

theorem ratingNorm_nonneg (d : Document) : 0 ≤ ratingNorm d := by
  unfold ratingNorm
  have h : (0.0 : ℝ) = 0 := by norm_num
  rw [h]
  exact le_min (le_max_right _ _) (by norm_num)

theorem discountNorm_nonneg (d : Document) : 0 ≤ discountNorm d := by
  unfold discountNorm
  have h : (0.0 : ℝ) = 0 := by norm_num
  rw [h]
  exact le_min (le_max_right _ _) (by norm_num)

theorem popularityNorm_nonneg (mc c : ℕ) : 0 ≤ popularityNorm mc c := by
  unfold popularityNorm
  split
  · positivity
  · exact le_refl 0

theorem maxPriceFold_from_some (l : List (Document × ℝ)) :
    ∀ m : ℝ,
      ∃ mx, l.foldl
        (fun acc p =>
          match p.1.selling_price with
          | none => acc
          | some pr =>
            match acc with
            | none => some pr
            | some m' => if m' < pr then some pr else some m') (some m)
        = some mx ∧ m ≤ mx := by
  induction l with
  | nil => intro m; exact ⟨m, rfl, le_refl m⟩
  | cons y ys ih =>
    intro m
    rw [List.foldl_cons]
    cases hy : y.1.selling_price with
    | none => simpa [hy] using ih m
    | some pr =>
      simp only [hy]
      by_cases hc : m < pr
      · rw [if_pos hc]
        rcases ih pr with ⟨mx, hmx, hle⟩
        exact ⟨mx, hmx, le_trans (le_of_lt hc) hle⟩
      · rw [if_neg hc]
        exact ih m

theorem maxPriceFold_mem {x : Document × ℝ} {p : ℝ}
    (hp : x.1.selling_price = some p) :
    ∀ (l : List (Document × ℝ)), x ∈ l → ∀ acc : Option ℝ,
      ∃ mx, l.foldl
        (fun acc' q =>
          match q.1.selling_price with
          | none => acc'
          | some pr =>
            match acc' with
            | none => some pr
            | some m' => if m' < pr then some pr else some m') acc
        = some mx ∧ p ≤ mx := by
  intro l
  induction l with
  | nil => intro hx; exact absurd hx (List.not_mem_nil x)
  | cons y ys ih =>
    intro hx acc
    rw [List.foldl_cons]
    rcases List.mem_cons.mp hx with rfl | hx'
    · cases acc with
      | none =>
        simp only [hp]
        exact maxPriceFold_from_some ys p
      | some m =>
        simp only [hp]
        by_cases hc : m < p
        · simp only [if_pos hc]
          exact maxPriceFold_from_some ys p
        · simp only [if_neg hc]
          rcases maxPriceFold_from_some ys m with ⟨mx, hmx, hle⟩
          exact ⟨mx, hmx, le_trans (le_of_not_lt hc) hle⟩
    · exact ih hx' _

theorem minPriceFold_from_some (l : List (Document × ℝ)) :
    ∀ m : ℝ,
      ∃ mn, l.foldl
        (fun acc p =>
          match p.1.selling_price with
          | none => acc
          | some pr =>
            match acc with
            | none => some pr
            | some m' => if pr < m' then some pr else some m') (some m)
        = some mn ∧ mn ≤ m := by
  induction l with
  | nil => intro m; exact ⟨m, rfl, le_refl m⟩
  | cons y ys ih =>
    intro m
    rw [List.foldl_cons]
    cases hy : y.1.selling_price with
    | none => simpa [hy] using ih m
    | some pr =>
      simp only [hy]
      by_cases hc : pr < m
      · rw [if_pos hc]
        rcases ih pr with ⟨mn, hmn, hle⟩
        exact ⟨mn, hmn, le_trans hle (le_of_lt hc)⟩
      · rw [if_neg hc]
        exact ih m

theorem minPriceFold_mem {x : Document × ℝ} {p : ℝ}
    (hp : x.1.selling_price = some p) :
    ∀ (l : List (Document × ℝ)), x ∈ l → ∀ acc : Option ℝ,
      ∃ mn, l.foldl
        (fun acc' q =>
          match q.1.selling_price with
          | none => acc'
          | some pr =>
            match acc' with
            | none => some pr
            | some m' => if pr < m' then some pr else some m') acc
        = some mn ∧ mn ≤ p := by
  intro l
  induction l with
  | nil => intro hx; exact absurd hx (List.not_mem_nil x)
  | cons y ys ih =>
    intro hx acc
    rw [List.foldl_cons]
    rcases List.mem_cons.mp hx with rfl | hx'
    · cases acc with
      | none =>
        simp only [hp]
        exact minPriceFold_from_some ys p
      | some m =>
        simp only [hp]
        by_cases hc : p < m
        · simp only [if_pos hc]
          exact minPriceFold_from_some ys p
        · simp only [if_neg hc]
          rcases minPriceFold_from_some ys m with ⟨mn, hmn, hle⟩
          exact ⟨mn, hmn, le_trans hle (le_of_not_lt hc)⟩
    · exact ih hx' _

/-- The price score of a candidate of the set is always in the guarded range:
its own price lies between the set's min and max, so
`1 - (p - mn)/(mx - mn)` cannot go negative. -/
theorem priceScore_nonneg_of_mem (l : List (Document × ℝ))
    (x : Document × ℝ) (hx : x ∈ l) :
    0 ≤ priceScore (minPriceFold l) (maxPriceFold l) x.1.selling_price := by
  cases hp : x.1.selling_price with
  | none => simp [priceScore]; norm_num
  | some p =>
    rcases minPriceFold_mem hp l hx none with ⟨mn, hmn, hmnp⟩
    rcases maxPriceFold_mem hp l hx none with ⟨mx, hmx, hpmx⟩
    have hmn' : minPriceFold l = some mn := hmn
    have hmx' : maxPriceFold l = some mx := hmx
    rw [hmn', hmx']
    unfold priceScore
    simp only []
    by_cases he : mx = mn
    · rw [if_pos he]
      norm_num
    · rw [if_neg he]
      have hlt : mn < mx := lt_of_le_of_ne (le_trans hmnp hpmx) (Ne.symm he)
      have hdiv : (p - mn) / (mx - mn) ≤ 1 := by
        rw [div_le_one (by linarith)]
        linarith
      norm_num
      linarith

theorem hybridFinal_nonneg {sn rn dn ps pn : ℝ} (h1 : 0 ≤ sn) (h2 : 0 ≤ rn)
    (h3 : 0 ≤ dn) (h4 : 0 ≤ ps) (h5 : 0 ≤ pn) (oos : Bool) :
    0 ≤ hybridFinal sn rn dn ps pn oos := by
  unfold hybridFinal
  split <;> nlinarith

/-- Every hybrid final score of a BM25 candidate is non-negative. -/
theorem hybridScoreOf_nonneg {corpus : Corpus} {q : String}
    {x : Document × ℝ} (hx : x ∈ bm25Search corpus q 20)
    (cc : Option (String → ℕ)) :
    0 ≤ hybridScoreOf cc (bm25Search corpus q 20) x := by
  unfold hybridScoreOf
  apply hybridFinal_nonneg
  · exact simNorm_nonneg maxBM25Of_nonneg (bm25Search_snd_nonneg hx)
  · exact ratingNorm_nonneg _
  · exact discountNorm_nonneg _
  · exact priceScore_nonneg_of_mem _ x hx
  · exact popularityNorm_nonneg _ _

end Nonneg

/-- C5: the hybrid final score is exactly the weighted combination
`0.6*simNorm + 0.15*ratingNorm + 0.1*discountNorm + 0.05*priceScore +
0.05*popularityNorm`, multiplied by 1.05 exactly when the document is in
stock; every candidate score of the reranker is the `hybridScoreOf` of a BM25
candidate; and every score attached to a returned result of the engine is
present and non-negative (the real-number embedding has no NaN or infinity,
and the division guards return 0 or 0.5 instead). -/
theorem hybrid_score_formula_and_nonneg (q sid : String) (corpus : Corpus)
    (cc : Option (String → ℕ)) :
    (∀ sn rn dn ps pn : ℝ, ∀ oos : Bool,
      hybridFinal sn rn dn ps pn oos =
        (0.6 * sn + 0.15 * rn + 0.1 * dn + 0.05 * ps + 0.05 * pn) *
          (if oos = false then 1.05 else 1)) ∧
    (∀ p ∈ hybridScoredList corpus q cc,
      ∃ x ∈ bm25Search corpus q 20,
        p = (x.1, hybridScoreOf cc (bm25Search corpus q 20) x)) ∧
    (∀ d ∈ searchEngineSearch q sid corpus cc,
      ∃ s, d.score = some s ∧ 0 ≤ s) := by
  refine ⟨?_, ?_, ?_⟩
  · intro sn rn dn ps pn oos
    unfold hybridFinal
    split
    · ring
    · ring
  · intro p hp
    simp only [hybridScoredList] at hp
    rcases List.mem_map.mp hp with ⟨x, hx, rfl⟩
    exact ⟨x, hx, rfl⟩
  · intro d hd
    simp only [searchEngineSearch] at hd
    by_cases hb : (bm25Search corpus q 20).isEmpty
    · rw [if_pos hb] at hd
      exact absurd hd (List.not_mem_nil d)
    · rw [if_neg hb] at hd
      rcases List.mem_map.mp hd with ⟨p, hp, rfl⟩
      have hp' : p ∈ hybridScoredList corpus q cc :=
        (sortDesc_perm (fun r : Document × ℝ => r.2) _).mem_iff.mp hp
      simp only [hybridScoredList] at hp'
      rcases List.mem_map.mp hp' with ⟨x, hx, rfl⟩
      exact ⟨hybridScoreOf cc (bm25Search corpus q 20) x, rfl,
        hybridScoreOf_nonneg hx cc⟩

theorem bm25Search_corpusZ :
    bm25Search corpusZ "shoes" 20 = [(copyBM25 docStop, 0)] := by
  have hq' : (tokenize "shoes").isEmpty = false := by decide
  have hscore : calcBM25Score [("Z1", docStop)] docStop (tokenize "shoes") = 0 :=
    calcBM25Score_zero _ docStop (by decide) _
  simp only [bm25Search, hq', Bool.false_eq_true, if_false, corpusZ,
    List.map_cons, List.map_nil]
  rw [hscore, applyMetadataBoosts_zero]
  simp [sortDesc, insertDesc]

theorem hybridScoredList_corpusZ :
    hybridScoredList corpusZ "shoes" none =
      [(copyBM25 docStop,
        hybridScoreOf none [(copyBM25 docStop, 0)] (copyBM25 docStop, 0))] := by
  simp only [hybridScoredList, bm25Search_corpusZ, List.map_cons, List.map_nil]

theorem hybridScoreOf_corpusZ :
    hybridScoreOf none [(copyBM25 docStop, 0)] (copyBM25 docStop, 0) = 0.025 := by
  have h1 : (copyBM25 docStop).average_rating = none := rfl
  have h2 : (copyBM25 docStop).discount = none := rfl
  have h3 : (copyBM25 docStop).selling_price = none := rfl
  have h4 : (copyBM25 docStop).out_of_stock = true := rfl
  have hmax : maxBM25Of [(copyBM25 docStop, 0)] = 0 := by
    simp [maxBM25Of, pyMax]
  have hmc : maxClicksOf none [(copyBM25 docStop, 0)] = 0 := by
    simp [maxClicksOf, pyMaxNat, clicksOf]
  unfold hybridScoreOf
  rw [hmax, hmc]
  unfold simNorm ratingNorm discountNorm priceScore popularityNorm hybridFinal
  rw [h1, h2, h3, h4]
  norm_num [minPriceFold, maxPriceFold, h3]

theorem searchEngineSearch_corpusZ :
    searchEngineSearch "shoes" "s1" corpusZ none =
      [finalizeDoc "s1" (copyBM25 docStop) 0.025] := by
  have hh : hybridScoredList corpusZ "shoes" none =
      [(copyBM25 docStop, (0.025 : ℝ))] := by
    rw [hybridScoredList_corpusZ, hybridScoreOf_corpusZ]
  simp only [searchEngineSearch]
  rw [bm25Search_corpusZ, hh]
  simp [sortDesc, insertDesc]

theorem hybrid_score_formula_and_nonneg_witness :
    finalizeDoc "s1" (copyBM25 docStop) 0.025 ∈
      searchEngineSearch "shoes" "s1" corpusZ none ∧
    ∃ s, (finalizeDoc "s1" (copyBM25 docStop) 0.025).score = some s ∧ 0 ≤ s := by
  have hmem : finalizeDoc "s1" (copyBM25 docStop) 0.025 ∈
      searchEngineSearch "shoes" "s1" corpusZ none := by
    rw [searchEngineSearch_corpusZ]
    exact List.mem_singleton.mpr rfl
  exact ⟨hmem,
    (hybrid_score_formula_and_nonneg "shoes" "s1" corpusZ none).2.2 _ hmem⟩

end IRWA
